import Mathlib

/-!
Verification of the FintelAI document-analytics dashboard (`app.py`).

Strings are modelled as `List Char` (Python `str`).  JSON values are
modelled by `JsonValue`; numbers are restricted to integers (the
documents' extracted fields are integral amounts; `float` results are
outside the model, so the parser model rejects fractional and exponent
syntax instead of producing a float).  Python exceptions are modelled by
`Option`: a function that would raise returns `none`.
-/

/-- JSON values as produced by Python `json.loads`: objects keep key order
and de-duplicate keys the way a Python `dict` does (value overwritten at
the first occurrence of the key). -/
inductive JsonValue where
  | obj (entries : List (List Char × JsonValue))
  | arr (elems : List JsonValue)
  | num (n : Int)
  | str (s : List Char)
  | bool (b : Bool)
  | null

/-- Python `dict` insertion: if the key is present, overwrite its value in
place; otherwise append the new binding at the end. -/
def dictInsert (k : List Char) (v : JsonValue) :
    List (List Char × JsonValue) → List (List Char × JsonValue)
  | [] => [(k, v)]
  | kv :: rest => if kv.1 = k then (k, v) :: rest else kv :: dictInsert k v rest

/-- Python `dict` lookup (`d[k]` / `d.get(k)`). -/
def dictLookup (k : List Char) : List (List Char × JsonValue) → Option JsonValue
  | [] => none
  | kv :: rest => if kv.1 = k then some kv.2 else dictLookup k rest

/-- JSON whitespace accepted by Python `json.loads` between tokens. -/
def isJsonWs (c : Char) : Bool :=
  c = ' ' || c = '\t' || c = '\n' || c = '\r'

/-- Skip JSON whitespace. -/
def skipWs (cs : List Char) : List Char := cs.dropWhile isJsonWs

/-- `True` when the trailing text after a parsed value is only whitespace
(the `json.loads` end-of-input check). -/
def wsOnly (cs : List Char) : Bool := cs.all isJsonWs

/-- Scan a JSON string body (the opening quote already consumed),
handling the escape sequences of `json.loads` (strict mode: raw control
characters are rejected; `\uXXXX` escapes are outside the model). -/
def scanStr (acc : List Char) : List Char → Option (List Char × List Char)
  | [] => none
  | c :: cs =>
    if c = '"' then some (acc.reverse, cs)
    else if c = '\\' then
      match cs with
      | [] => none
      | e :: cs2 =>
        if e = '"' then scanStr ('"' :: acc) cs2
        else if e = '\\' then scanStr ('\\' :: acc) cs2
        else if e = '/' then scanStr ('/' :: acc) cs2
        else if e = 'n' then scanStr ('\n' :: acc) cs2
        else if e = 't' then scanStr ('\t' :: acc) cs2
        else if e = 'r' then scanStr ('\r' :: acc) cs2
        else if e = 'b' then scanStr ('\x08' :: acc) cs2
        else if e = 'f' then scanStr ('\x0c' :: acc) cs2
        else none
    else if c.toNat < 32 then none
    else scanStr (c :: acc) cs

/-- Decimal digit test (the character class `[0-9]` of the JSON number
grammar). -/
def isDigitC (c : Char) : Bool := 48 ≤ c.toNat && c.toNat ≤ 57

/-- Take the maximal run of decimal digits. -/
def takeDigits : List Char → List Char × List Char
  | [] => ([], [])
  | c :: cs =>
    if isDigitC c then
      let p := takeDigits cs
      (c :: p.1, p.2)
    else ([], c :: cs)

/-- Numeric value of a decimal digit run. -/
def digitsToNat (ds : List Char) : Nat :=
  ds.foldl (fun a c => a * 10 + (c.toNat - 48)) 0

/-- The JSON number grammar forbids a leading zero on a multi-digit run. -/
def noLeadZero : List Char → Bool
  | [] => false
  | [_] => true
  | c :: _ :: _ => !(c = '0')

/-- After an integer digit run, a fraction or exponent marker would make
the number a float, which is outside this model. -/
def intGuard : List Char → Bool
  | [] => true
  | c :: _ => !(c = '.' || c = 'e' || c = 'E')

/-- Parse a JSON integer (optionally signed), mirroring the `json.loads`
number grammar restricted to integers. -/
def parseNumber (cs : List Char) : Option (JsonValue × List Char) :=
  match cs with
  | [] => none
  | c :: rest =>
    if c = '-' then
      if !(takeDigits rest).1.isEmpty && noLeadZero (takeDigits rest).1 &&
          intGuard (takeDigits rest).2 then
        some (JsonValue.num (-(Int.ofNat (digitsToNat (takeDigits rest).1))),
          (takeDigits rest).2)
      else none
    else
      if !(takeDigits (c :: rest)).1.isEmpty && noLeadZero (takeDigits (c :: rest)).1 &&
          intGuard (takeDigits (c :: rest)).2 then
        some (JsonValue.num (Int.ofNat (digitsToNat (takeDigits (c :: rest)).1)),
          (takeDigits (c :: rest)).2)
      else none

def litTrue : List Char := "true".toList
def litFalse : List Char := "false".toList
def litNull : List Char := "null".toList

/-- Parsing mode: a whole value, the members of an object (after `{`,
first key expected), or the elements of an array (after `[`, first
element expected).  `acc` accumulates what has been parsed so far. -/
inductive PMode where
  | value
  | members (acc : List (List Char × JsonValue))
  | elems (acc : List JsonValue)

/-- The recursive JSON parser, mirroring `json.loads` (with integer-only
numbers).  Fuel bounds the recursion depth; `parseJson` supplies more
fuel than any input can consume. -/
def parseF : Nat → PMode → List Char → Option (JsonValue × List Char)
  | 0, _, _ => none
  | Nat.succ f, PMode.value, cs =>
    match skipWs cs with
    | [] => none
    | c :: r =>
      if c = '\x7b' then
        match skipWs r with
        | [] => parseF f (PMode.members []) r
        | c2 :: r2 =>
          if c2 = '\x7d' then some (JsonValue.obj [], r2)
          else parseF f (PMode.members []) r
      else if c = '[' then
        match skipWs r with
        | [] => parseF f (PMode.elems []) r
        | c2 :: r2 =>
          if c2 = ']' then some (JsonValue.arr [], r2)
          else parseF f (PMode.elems []) r
      else if c = '"' then
        match scanStr [] r with
        | some p => some (JsonValue.str p.1, p.2)
        | none => none
      else if c = '-' || isDigitC c then parseNumber (c :: r)
      else if litTrue.isPrefixOf (c :: r) then some (JsonValue.bool true, (c :: r).drop 4)
      else if litFalse.isPrefixOf (c :: r) then some (JsonValue.bool false, (c :: r).drop 5)
      else if litNull.isPrefixOf (c :: r) then some (JsonValue.null, (c :: r).drop 4)
      else none
  | Nat.succ f, PMode.members acc, cs =>
    match skipWs cs with
    | [] => none
    | c :: r =>
      if c = '"' then
        match scanStr [] r with
        | none => none
        | some (key, r2) =>
          match skipWs r2 with
          | [] => none
          | c2 :: r3 =>
            if c2 = ':' then
              match parseF f PMode.value r3 with
              | none => none
              | some (v, r4) =>
                match skipWs r4 with
                | [] => none
                | c4 :: r5 =>
                  if c4 = ',' then parseF f (PMode.members (dictInsert key v acc)) r5
                  else if c4 = '\x7d' then some (JsonValue.obj (dictInsert key v acc), r5)
                  else none
            else none
      else none
  | Nat.succ f, PMode.elems acc, cs =>
    match parseF f PMode.value cs with
    | none => none
    | some (v, r) =>
      match skipWs r with
      | [] => none
      | c2 :: r2 =>
        if c2 = ',' then parseF f (PMode.elems (acc ++ [v])) r2
        else if c2 = ']' then some (JsonValue.arr (acc ++ [v]), r2)
        else none

/-- Model of `json.loads`: parse one value, then require only whitespace
to the end of the input; any failure (an exception in Python) is `none`. -/
def parseJson (cs : List Char) : Option JsonValue :=
  match parseF (cs.length + 2) PMode.value cs with
  | some (v, rest) => if wsOnly rest then some v else none
  | none => none

/-! ### The fenced-block regex of layer 2

`re.search(r'```json\s*(\\\x7b.*?\\\x7d)\s*```', text, re.DOTALL)` is
modelled directly: leftmost match wins; `\s*` before a brace or a
backtick is equivalent to maximal whitespace munch; the lazy group takes
the first closing brace whose whitespace-stripped continuation starts
with three backticks. -/

/-- Python regex `\s` (ASCII range). -/
def isReWs (c : Char) : Bool :=
  c = ' ' || c = '\t' || c = '\n' || c = '\r' || c = '\x0b' || c = '\x0c'

/-- Drop regex whitespace. -/
def dropReWs (cs : List Char) : List Char := cs.dropWhile isReWs

def fenceTag : List Char := "```json".toList
def ticks : List Char := "```".toList

/-- The lazy group `(\x7b.*?\x7d)` followed by `\s*` and three backticks:
scan for the first `\x7d` whose continuation, after whitespace, starts
with three backticks.  `acc` holds the reversed capture so far. -/
def lazyCap (acc : List Char) : List Char → Option (List Char)
  | [] => none
  | c :: cs =>
    if c = '\x7d' && ticks.isPrefixOf (dropReWs cs) then
      some ((c :: acc).reverse)
    else lazyCap (c :: acc) cs

/-- Attempt the tail of the pattern at a position right after the literal
tag: `\s*` then the lazy brace group. -/
def fencedHere (after : List Char) : Option (List Char) :=
  if (dropReWs after).head? = some '\x7b' then lazyCap ['\x7b'] ((dropReWs after).tail)
  else none

/-- `re.search` of the fenced-block pattern: try every start position
from the left; at a position the pattern requires the literal tag, then
the tail.  Returns the captured group of the first full match. -/
def findFenced : List Char → Option (List Char)
  | [] => none
  | c :: rest =>
    if fenceTag.isPrefixOf (c :: rest) then
      (fencedHere ((c :: rest).drop 7)).orElse (fun _ => findFenced rest)
    else findFenced rest

/-- First index at which the predicate holds. -/
def findIdxFrom (p : Char → Bool) : List Char → Option Nat
  | [] => none
  | c :: cs => if p c then some 0 else (findIdxFrom p cs).map Nat.succ

/-- `str.find(c)` succeeding index: first occurrence. -/
def firstIdx (cs : List Char) (c : Char) : Option Nat :=
  findIdxFrom (fun x => x = c) cs

/-- `str.rfind(c)` succeeding index: last occurrence. -/
def lastIdx (cs : List Char) (c : Char) : Option Nat :=
  match findIdxFrom (fun x => x = c) cs.reverse with
  | some i => some (cs.length - 1 - i)
  | none => none

/-- Layer 3 of the sanitizer: `text[text.find('\x7b') : text.rfind('\x7d')+1]`
when both braces occur (`start != -1 and end != 0`); Python slice
semantics give the empty string when the last `\x7d` precedes the first
`\x7b`. -/
def braceSpan (text : List Char) : Option (List Char) :=
  match firstIdx text '\x7b', lastIdx text '\x7d' with
  | some s, some e => some ((text.drop s).take (e + 1 - s))
  | _, _ => none

/-- `DocumentProcessor._sanitize_json_output` (app.py lines 59-85).
Layer 1 (direct parse) has its own `except`; layers 2 (fenced block) and
3 (brace span) share a single `try/except`, so an exception inside the
fenced-block layer returns the empty mapping without attempting the
brace span. -/
def sanitizeL (text : List Char) : JsonValue :=
  match parseJson text with
  | some v => v
  | none =>
    match findFenced text with
    | some cap =>
      match parseJson cap with
      | some v => v
      | none => JsonValue.obj []
    | none =>
      match braceSpan text with
      | some s =>
        match parseJson s with
        | some v => v
        | none => JsonValue.obj []
      | none => JsonValue.obj []

/-- Modelled from the spec's words for the refinement comparison of the
sanitizer's layering: "Any exception inside a given layer is caught
locally and causes fallthrough to the next layer" — each layer has its
own local handler, so a parse failure in the fenced-block layer still
lets the brace-span layer run. -/
def sanitizeSpecLayers (text : List Char) : JsonValue :=
  match parseJson text with
  | some v => v
  | none =>
    match (findFenced text).bind parseJson with
    | some v => v
    | none =>
      match (braceSpan text).bind parseJson with
      | some v => v
      | none => JsonValue.obj []

/-! ### Spec-side JSON serialization

The spec's `json.serialize(M)` for a flat string-to-number mapping `M`,
in Python `json.dumps` style: `\x7b"k": v, "k2": v2\x7d`, escaping `"` and `\\`
inside keys (keys containing control characters would additionally need
`\uXXXX` escapes and are outside the model). -/

/-- Escape one character of a JSON string. -/
def escChar (c : Char) : List Char :=
  if c = '"' then ['\\', '"']
  else if c = '\\' then ['\\', '\\']
  else [c]

/-- Escape a JSON string body. -/
def escString (s : List Char) : List Char := s.flatMap escChar

/-- Decimal digits of a natural number, fuelled so that the definition is
structural and kernel-reducible; `natToChars` supplies enough fuel. -/
def natToCharsAux : Nat → Nat → List Char → List Char
  | 0, _, acc => acc
  | Nat.succ f, n, acc =>
    if n < 10 then Char.ofNat (48 + n) :: acc
    else natToCharsAux f (n / 10) (Char.ofNat (48 + n % 10) :: acc)

/-- Decimal representation of a natural number. -/
def natToChars (n : Nat) : List Char := natToCharsAux (n + 1) n []

/-- Decimal representation of an integer. -/
def intToChars (v : Int) : List Char :=
  if v < 0 then '-' :: natToChars v.natAbs else natToChars v.toNat

/-- One serialized member `"key": value`. -/
def serPair (p : List Char × Int) : List Char :=
  '"' :: (escString p.1 ++ '"' :: ':' :: ' ' :: intToChars p.2)

/-- Serialized members, `", "`-separated. -/
def serMembers : List (List Char × Int) → List Char
  | [] => []
  | [p] => serPair p
  | p :: q :: rest => serPair p ++ ',' :: ' ' :: serMembers (q :: rest)

/-- `json.serialize` of a flat string-to-number mapping. -/
def serializeFlat (M : List (List Char × Int)) : List Char :=
  '\x7b' :: (serMembers M ++ ['\x7d'])

/-- The JSON object a flat mapping denotes. -/
def jsonOf (M : List (List Char × Int)) : List (List Char × JsonValue) :=
  M.map (fun p => (p.1, JsonValue.num p.2))

/-- A markdown fenced code block tagged `json` holding the serialized
mapping, as in the spec's recovery scenario. -/
def fenceWrap (M : List (List Char × Int)) : List Char :=
  fenceTag ++ '\n' :: (serializeFlat M ++ '\n' :: ticks)

/-! ### Python truthiness, the per-document loop, and the result table -/

/-- Python truthiness of a parsed JSON value (`if extracted_json:`). -/
def pyTruthy : JsonValue → Bool
  | JsonValue.obj [] => false
  | JsonValue.obj (_ :: _) => true
  | JsonValue.arr [] => false
  | JsonValue.arr (_ :: _) => true
  | JsonValue.num n => !(n = 0)
  | JsonValue.str [] => false
  | JsonValue.str (_ :: _) => true
  | JsonValue.bool b => b
  | JsonValue.null => false

/-- The `Document` column name. -/
def docKey : List Char := "Document".toList

/-- `row = extracted_json.copy(); row['Document'] = file.name` — valid
only when the extracted value is a dict; on any other value Python
raises (`AttributeError`/`TypeError`), caught by the loop's generic
handler. -/
def buildRow (name : List Char) : JsonValue → Option (List (List Char × JsonValue))
  | JsonValue.obj entries => some (dictInsert docKey (JsonValue.str name) entries)
  | _ => none

/-- Outcome of the per-document loop of `main` (app.py lines 232-261):
rows appended to `all_data`, `st.warning` messages (named by document)
for falsy extraction results, `st.error` documents whose row build
raised. -/
structure BatchOutcome where
  rows : List (List (List Char × JsonValue))
  warnings : List (List Char)
  errors : List (List Char)

/-- The per-document loop: each document carries the value returned by
`run_ocr` (`none` models a `None` return). -/
def processBatch : List (List Char × Option JsonValue) → BatchOutcome
  | [] => ⟨[], [], []⟩
  | (name, res) :: rest =>
    let tail := processBatch rest
    match res with
    | some v =>
      if pyTruthy v then
        match buildRow name v with
        | some row => ⟨row :: tail.rows, tail.warnings, tail.errors⟩
        | none => ⟨tail.rows, tail.warnings, name :: tail.errors⟩
      else ⟨tail.rows, name :: tail.warnings, tail.errors⟩
    | none => ⟨tail.rows, name :: tail.warnings, tail.errors⟩

/-- Order-preserving de-duplication (first occurrence kept): skip keys
already seen. -/
def dedupAux (seen : List (List Char)) : List (List Char) → List (List Char)
  | [] => []
  | k :: rest =>
    if seen.contains k then dedupAux seen rest
    else k :: dedupAux (k :: seen) rest

/-- Order-preserving de-duplication (first occurrence kept), as pandas
unions the keys of a list of dicts. -/
def dedupKeys (ks : List (List Char)) : List (List Char) := dedupAux [] ks

/-- `pd.DataFrame(all_data)` column order: keys in first-appearance
order across the rows. -/
def dfRawColumns (rows : List (List (List Char × JsonValue))) : List (List Char) :=
  dedupKeys (rows.flatMap (fun r => r.map Prod.fst))

/-- `cols = ['Document'] + [c for c in df.columns if c != 'Document']`
(app.py line 270). -/
def dfColumns (rows : List (List (List Char × JsonValue))) : List (List Char) :=
  docKey :: (dfRawColumns rows).filter (fun c => !(c = docKey))

/-- Render one CSV cell: plain numbers, raw strings, empty for a missing
value (pandas `NaN`); bool/null cells do not occur in the modelled
tables. -/
def renderCell : Option JsonValue → List Char
  | some (JsonValue.num n) => intToChars n
  | some (JsonValue.str s) => s
  | _ => []

/-- Join with a separator character. -/
def joinWith (sep : Char) : List (List Char) → List Char
  | [] => []
  | [x] => x
  | x :: y :: rest => x ++ sep :: joinWith sep (y :: rest)

/-- `df.to_csv(index=False)`: header line, one line per row, cells in
column order, newline-terminated lines, no index column. -/
def toCsv (rows : List (List (List Char × JsonValue))) : List Char :=
  let cols := dfColumns rows
  let header := joinWith ',' cols
  let lines := rows.map (fun r => joinWith ',' (cols.map (fun c => renderCell (dictLookup c r))))
  (header :: lines).flatMap (fun l => l ++ ['\n'])

/-! ### Field schema registry and OCR invocation -/

/-- `DOCUMENT_CONFIGS`: document type name, field list, color scale. -/
def documentConfigs : List (List Char × List (List Char) × List Char) :=
  [ ("Salary Slip".toList,
     ["Basic Salary".toList, "HRA".toList, "DA".toList, "PF".toList,
      "Net Salary".toList, "Gross Salary".toList], "Blues".toList),
    ("Bank Statement".toList,
     ["Opening Balance".toList, "Closing Balance".toList,
      "Total Credits".toList, "Total Debits".toList], "Greens".toList),
    ("Balance Sheet".toList,
     ["Total Assets".toList, "Total Liabilities".toList,
      "Current Assets".toList, "Current Liabilities".toList,
      "Net Worth".toList], "Purples".toList),
    ("Invoice".toList,
     ["Invoice Amount".toList, "Tax Amount".toList, "Total Amount".toList,
      "Discount Amount".toList], "Oranges".toList),
    ("Profit and Loss".toList,
     ["Revenue".toList, "Expenses".toList, "Net Profit".toList,
      "Gross Profit".toList, "Operating Profit".toList], "Reds".toList) ]

/-- Field list of the `Profit and Loss` schema, in schema order. -/
def profitLossFields : List (List Char) :=
  ["Revenue".toList, "Expenses".toList, "Net Profit".toList,
   "Gross Profit".toList, "Operating Profit".toList]

/-- The required credential variable name. -/
def groqKeyName : List Char := "GROQ_API_KEY".toList

/-- Environment lookup (`os.getenv`): `none` when the variable is unset. -/
def lookupEnv (env : List (List Char × List Char)) (k : List Char) : Option (List Char) :=
  match env with
  | [] => none
  | kv :: rest => if kv.1 = k then some kv.2 else lookupEnv rest k

/-- Python truthiness of `os.getenv(...)`: `None` and the empty string
are falsy. -/
def envTruthy : Option (List Char) → Bool
  | none => false
  | some s => !s.isEmpty

/-- What the external OCR subprocess does when launched. -/
inductive EngineOutcome where
  | completes (exitCode : Int) (stdout : List Char) (stderr : List Char)
  | timesOut
  | spawnFails

/-- Result of `DocumentProcessor.run_ocr`: whether the subprocess was
launched, and the value returned to the caller (`none` models `None`). -/
structure OcrResult where
  invoked : Bool
  result : Option JsonValue

/-- `DocumentProcessor.run_ocr` (app.py lines 87-131): check the
credential, then launch the engine; non-zero exit, timeout, or any other
exception returns `None`; otherwise the stdout is sanitized. -/
def run_ocr (env : List (List Char × List Char)) (engine : EngineOutcome)
    (_filePath : List Char) (_fields : List (List Char)) : OcrResult :=
  if !(envTruthy (lookupEnv env groqKeyName)) then ⟨false, none⟩
  else
    match engine with
    | EngineOutcome.completes code out _ =>
      if !(code = 0) then ⟨true, none⟩ else ⟨true, some (sanitizeL out)⟩
    | EngineOutcome.timesOut => ⟨true, none⟩
    | EngineOutcome.spawnFails => ⟨true, none⟩

/-! ### Basic facts about whitespace skipping -/

theorem skipWs_cons_of_ws (c : Char) (cs : List Char) (h : isJsonWs c = true) :
    skipWs (c :: cs) = skipWs cs := by
  simp [skipWs, List.dropWhile_cons, h]

theorem skipWs_cons_of_not_ws (c : Char) (cs : List Char) (h : isJsonWs c = false) :
    skipWs (c :: cs) = c :: cs := by
  simp [skipWs, List.dropWhile_cons, h]

/-! ### Claim C9 — missing credential short-circuits the invocation -/

/-- C9: when the required API credential environment variable
(`GROQ_API_KEY`) is unset, `run_ocr` short-circuits: it returns a
failure result (`None`) without launching the external OCR process, for
every file path, field list, and engine behavior. -/
theorem run_ocr_missing_credential (env : List (List Char × List Char))
    (engine : EngineOutcome) (fp : List Char) (fs : List (List Char))
    (h : lookupEnv env groqKeyName = none) :
    run_ocr env engine fp fs = ⟨false, none⟩ := by
  unfold run_ocr
  rw [h]
  rfl

/-- Witness for `run_ocr_missing_credential` at the empty environment. -/
theorem run_ocr_missing_credential_witness :
    run_ocr [] EngineOutcome.timesOut "doc.png".toList ["Revenue".toList] = ⟨false, none⟩ :=
  run_ocr_missing_credential [] EngineOutcome.timesOut "doc.png".toList ["Revenue".toList] rfl

/-! ### Claim C2 — shape of the sanitizer's result -/

/-- `True` exactly when a JSON value is a mapping from strings to numbers
(the shape the claim says `sanitize` always returns, the empty mapping
included). -/
def isNumberMapping : JsonValue → Bool
  | JsonValue.obj entries =>
    entries.all (fun kv => match kv.2 with | JsonValue.num _ => true | _ => false)
  | _ => false

/-- C2 (amended): `sanitize` returns whatever JSON value the first
successful layer parses — the direct-parse layer returns the parsed
value verbatim, whatever its JSON kind (list, bare number, null, ...),
not only string-to-number mappings. -/
theorem sanitize_direct_parse (text : List Char) (v : JsonValue)
    (h : parseJson text = some v) : sanitizeL text = v := by
  unfold sanitizeL
  rw [h]

/-- C2 counterexample: on the input `[1, 2]`, which is valid JSON of a
non-object kind, `sanitize` returns a list — neither a string-to-number
mapping nor the empty mapping. -/
theorem sanitize_nonobject_counterexample :
    sanitizeL "[1, 2]".toList = JsonValue.arr [JsonValue.num 1, JsonValue.num 2] ∧
    isNumberMapping (sanitizeL "[1, 2]".toList) = false :=
  ⟨rfl, rfl⟩

/-- Witness for `sanitize_direct_parse`: a non-object direct parse. -/
theorem sanitize_direct_parse_witness :
    sanitizeL "[1, 2]".toList = JsonValue.arr [JsonValue.num 1, JsonValue.num 2] :=
  sanitize_direct_parse "[1, 2]".toList (JsonValue.arr [JsonValue.num 1, JsonValue.num 2]) rfl

/-! ### Claim C1 — layering of the sanitizer's fallback -/

/-- A raw model output whose fenced `json` block fails to parse while the
first-brace-to-last-brace span is valid JSON. -/
def exC1 : List Char := "hi \x7b\"a\": \"```json \x7bb\x7d ```\"\x7d bye".toList

/-- C1 (amended): layer 1's parse failure falls through to layer 2, but
layers 2 and 3 share a single exception handler: when the fenced-block
regex matches and its capture fails to parse, `sanitize` returns the
empty mapping without attempting the brace-span layer — even when the
brace span is available and parses successfully. -/
theorem sanitize_no_fallthrough_after_fenced (text cap s : List Char) (v : JsonValue)
    (h1 : parseJson text = none) (h2 : findFenced text = some cap)
    (h3 : parseJson cap = none) (_h4 : braceSpan text = some s)
    (_h5 : parseJson s = some v) :
    sanitizeL text = JsonValue.obj [] := by
  simp only [sanitizeL, h1, h2, h3]

/-- C1 counterexample: on `exC1` the code returns the empty mapping,
while the spec's per-layer fallthrough (modelled by
`sanitizeSpecLayers`) would recover the object from the brace span. -/
theorem sanitize_layering_counterexample :
    sanitizeL exC1 = JsonValue.obj [] ∧
    sanitizeSpecLayers exC1 =
      JsonValue.obj [("a".toList, JsonValue.str "```json \x7bb\x7d ```".toList)] ∧
    sanitizeL exC1 ≠ sanitizeSpecLayers exC1 := by
  refine ⟨rfl, rfl, ?_⟩
  intro h
  rw [show sanitizeL exC1 = JsonValue.obj [] from rfl,
      show sanitizeSpecLayers exC1 =
        JsonValue.obj [("a".toList, JsonValue.str "```json \x7bb\x7d ```".toList)] from rfl] at h
  injection h with h'
  exact List.noConfusion h'

/-- Witness for `sanitize_no_fallthrough_after_fenced` at `exC1`. -/
theorem sanitize_no_fallthrough_witness : sanitizeL exC1 = JsonValue.obj [] :=
  sanitize_no_fallthrough_after_fenced exC1 "\x7bb\x7d".toList
    "\x7b\"a\": \"```json \x7bb\x7d ```\"\x7d".toList
    (JsonValue.obj [("a".toList, JsonValue.str "```json \x7bb\x7d ```".toList)])
    rfl rfl rfl rfl rfl

/-! ### Claim C3 — behavior on brace-free input -/

theorem lazyCap_mem (cs : List Char) :
    ∀ acc cap, lazyCap acc cs = some cap → '\x7d' ∈ cs := by
  induction cs with
  | nil => intro acc cap h; simp [lazyCap] at h
  | cons c rest ih =>
    intro acc cap h
    by_cases hc : c = '\x7d'
    · subst hc; exact List.mem_cons_self _ _
    · simp only [lazyCap] at h
      rw [if_neg (by simp [hc])] at h
      exact List.mem_cons_of_mem _ (ih _ _ h)

theorem fencedHere_braces (after cap : List Char)
    (h : fencedHere after = some cap) : '\x7b' ∈ after ∧ '\x7d' ∈ after := by
  unfold fencedHere at h
  by_cases hc0 : (dropReWs after).head? = some '\x7b'
  · rw [if_pos hc0] at h
    have h7b : '\x7b' ∈ after := by
      have hm : '\x7b' ∈ dropReWs after := List.mem_of_mem_head? hc0
      exact List.Sublist.mem hm (List.dropWhile_sublist _)
    have h7d : '\x7d' ∈ after := by
      have hm : '\x7d' ∈ dropReWs after :=
        List.Sublist.mem (lazyCap_mem _ _ _ h) ((dropReWs after).tail_sublist)
      exact List.Sublist.mem hm (List.dropWhile_sublist _)
    exact ⟨h7b, h7d⟩
  · rw [if_neg hc0] at h; exact absurd h (by simp)

theorem findFenced_braces (cs : List Char) :
    ∀ cap, findFenced cs = some cap → '\x7b' ∈ cs ∧ '\x7d' ∈ cs := by
  induction cs with
  | nil => intro cap h; simp [findFenced] at h
  | cons c rest ih =>
    intro cap h
    simp only [findFenced] at h
    by_cases hp : fenceTag.isPrefixOf (c :: rest) = true
    · rw [if_pos hp] at h
      cases hfh : fencedHere ((c :: rest).drop 7) with
      | none =>
        rw [hfh] at h
        simp only [Option.orElse] at h
        obtain ⟨h1, h2⟩ := ih cap h
        exact ⟨List.mem_cons_of_mem _ h1, List.mem_cons_of_mem _ h2⟩
      | some cap2 =>
        obtain ⟨h1, h2⟩ := fencedHere_braces _ _ hfh
        have hs : List.Sublist ((c :: rest).drop 7) (c :: rest) :=
          List.drop_sublist 7 (c :: rest)
        exact ⟨List.Sublist.mem h1 hs, List.Sublist.mem h2 hs⟩
    · rw [if_neg hp] at h
      obtain ⟨h1, h2⟩ := ih cap h
      exact ⟨List.mem_cons_of_mem _ h1, List.mem_cons_of_mem _ h2⟩

theorem findIdxFrom_none (p : Char → Bool) (cs : List Char)
    (h : ∀ c ∈ cs, p c = false) : findIdxFrom p cs = none := by
  induction cs with
  | nil => rfl
  | cons c rest ih =>
    simp only [findIdxFrom]
    rw [h c (List.mem_cons_self _ _)]
    simp [ih (fun c hc => h c (List.mem_cons_of_mem _ hc))]

/-- C3 (amended): `sanitize` is total (it returns a value for every
input by construction), and on any input that fails the direct-parse
layer and contains no `\x7b` or no `\x7d`, it returns the empty mapping.
(The original claim is false: brace-free input such as `42` can succeed
at the direct-parse layer and is returned as a bare number.) -/
theorem sanitize_no_brace_empty (text : List Char)
    (hp : parseJson text = none)
    (h : '\x7b' ∉ text ∨ '\x7d' ∉ text) :
    sanitizeL text = JsonValue.obj [] := by
  have hff : findFenced text = none := by
    cases hf : findFenced text with
    | none => rfl
    | some cap =>
      obtain ⟨h1, h2⟩ := findFenced_braces text cap hf
      cases h with
      | inl hn => exact absurd h1 hn
      | inr hn => exact absurd h2 hn
  have hbs : braceSpan text = none := by
    unfold braceSpan
    cases h with
    | inl hn =>
      have hfi : firstIdx text '\x7b' = none := by
        unfold firstIdx
        refine findIdxFrom_none _ _ (fun c hc => ?_)
        simp only [decide_eq_false_iff_not]
        intro he; exact hn (he ▸ hc)
      rw [hfi]
    | inr hn =>
      have hnone : findIdxFrom (fun x => x = '\x7d') text.reverse = none := by
        refine findIdxFrom_none _ _ (fun c hc => ?_)
        simp only [decide_eq_false_iff_not]
        intro he; exact hn (List.mem_reverse.mp (he ▸ hc))
      have hli : lastIdx text '\x7d' = none := by
        unfold lastIdx
        rw [hnone]
      rw [hli]
      cases firstIdx text '\x7b' <;> rfl
  simp only [sanitizeL, hp, hff, hbs]

/-- C3 counterexample: the input `42` contains no brace of either kind,
yet `sanitize` returns the bare number `42`, not the empty mapping. -/
theorem sanitize_no_brace_counterexample :
    sanitizeL "42".toList = JsonValue.num 42 ∧
    "42".toList.contains '\x7b' = false ∧
    "42".toList.contains '\x7d' = false ∧
    JsonValue.num 42 ≠ JsonValue.obj [] := by
  refine ⟨rfl, rfl, rfl, fun h => JsonValue.noConfusion h⟩

/-- Witness for `sanitize_no_brace_empty` on brace-free prose. -/
theorem sanitize_no_brace_witness :
    sanitizeL "no braces here".toList = JsonValue.obj [] :=
  sanitize_no_brace_empty "no braces here".toList rfl (Or.inl (by decide))

/-! ### Claim C10 — the Document column always holds the file name -/

theorem dictLookup_insert (k : List Char) (v : JsonValue)
    (l : List (List Char × JsonValue)) :
    dictLookup k (dictInsert k v l) = some v := by
  induction l with
  | nil => simp [dictInsert, dictLookup]
  | cons kv rest ih =>
    by_cases h : kv.1 = k
    · simp [dictInsert, h, dictLookup]
    · simp [dictInsert, h, dictLookup, ih]

/-- A document whose extraction succeeded as a truthy dict: exactly the
documents for which the loop appends a row to `all_data`. -/
def isSuccess (p : List Char × Option JsonValue) : Bool :=
  match p.2 with
  | some (JsonValue.obj entries) => pyTruthy (JsonValue.obj entries)
  | _ => false

/-- The documents of a batch that contribute a row, in upload order. -/
def successDocs (batch : List (List Char × Option JsonValue)) :
    List (List Char × Option JsonValue) :=
  batch.filter isSuccess

/-- C10: every row added to the result table has its `Document` entry
equal to its *own* uploaded file's name: the table's rows correspond
one-to-one, in order, to the batch's successfully extracted documents,
and the `i`-th row's `Document` entry is the `i`-th such document's file
name — `row['Document'] = file.name` overwrites any `Document` key the
engine's extraction itself contained, even one spoofing another
document's name, for every document in every batch. -/
theorem rows_document_is_filename (batch : List (List Char × Option JsonValue)) :
    (processBatch batch).rows.length = (successDocs batch).length ∧
    ∀ (i : Nat) (r : List (List Char × JsonValue))
      (p : List Char × Option JsonValue),
      (processBatch batch).rows[i]? = some r →
      (successDocs batch)[i]? = some p →
      dictLookup docKey r = some (JsonValue.str p.1) := by
  induction batch with
  | nil =>
    refine ⟨rfl, ?_⟩
    intro i r p hr hp
    simp [processBatch] at hr
  | cons q rest ih =>
    obtain ⟨ihl, ihi⟩ := ih
    obtain ⟨name, res⟩ := q
    cases res with
    | none =>
      have hrows : (processBatch ((name, none) :: rest)).rows =
          (processBatch rest).rows := by
        simp only [processBatch]
      have hsd : successDocs ((name, none) :: rest) = successDocs rest := by
        simp [successDocs, List.filter_cons, isSuccess]
      refine ⟨by rw [hrows, hsd]; exact ihl, ?_⟩
      intro i r p hr hp
      rw [hrows] at hr
      rw [hsd] at hp
      exact ihi i r p hr hp
    | some v =>
      cases ht : pyTruthy v with
      | false =>
        have hsf : isSuccess (name, some v) = false := by
          cases v <;> simp [isSuccess, ht]
        have hrows : (processBatch ((name, some v) :: rest)).rows =
            (processBatch rest).rows := by
          simp only [processBatch, ht]
          rfl
        have hsd : successDocs ((name, some v) :: rest) = successDocs rest := by
          simp [successDocs, List.filter_cons, hsf]
        refine ⟨by rw [hrows, hsd]; exact ihl, ?_⟩
        intro i r p hr hp
        rw [hrows] at hr
        rw [hsd] at hp
        exact ihi i r p hr hp
      | true =>
        cases v with
        | obj entries =>
          have hrows :
              (processBatch ((name, some (JsonValue.obj entries)) :: rest)).rows =
              dictInsert docKey (JsonValue.str name) entries ::
                (processBatch rest).rows := by
            simp [processBatch, ht, buildRow]
          have hsd : successDocs ((name, some (JsonValue.obj entries)) :: rest) =
              (name, some (JsonValue.obj entries)) :: successDocs rest := by
            simp [successDocs, List.filter_cons, isSuccess, ht]
          refine ⟨by rw [hrows, hsd]; simp only [List.length_cons, ihl], ?_⟩
          intro i r p hr hp
          rw [hrows] at hr
          rw [hsd] at hp
          cases i with
          | zero =>
            simp only [List.getElem?_cons_zero, Option.some.injEq] at hr hp
            subst hr
            subst hp
            exact dictLookup_insert _ _ _
          | succ j =>
            simp only [List.getElem?_cons_succ] at hr hp
            exact ihi j r p hr hp
        | arr es =>
          have hrows : (processBatch ((name, some (JsonValue.arr es)) :: rest)).rows =
              (processBatch rest).rows := by
            simp [processBatch, ht, buildRow]
          have hsd : successDocs ((name, some (JsonValue.arr es)) :: rest) =
              successDocs rest := by
            simp [successDocs, List.filter_cons, isSuccess]
          refine ⟨by rw [hrows, hsd]; exact ihl, ?_⟩
          intro i r p hr hp
          rw [hrows] at hr
          rw [hsd] at hp
          exact ihi i r p hr hp
        | num n =>
          have hrows : (processBatch ((name, some (JsonValue.num n)) :: rest)).rows =
              (processBatch rest).rows := by
            simp [processBatch, ht, buildRow]
          have hsd : successDocs ((name, some (JsonValue.num n)) :: rest) =
              successDocs rest := by
            simp [successDocs, List.filter_cons, isSuccess]
          refine ⟨by rw [hrows, hsd]; exact ihl, ?_⟩
          intro i r p hr hp
          rw [hrows] at hr
          rw [hsd] at hp
          exact ihi i r p hr hp
        | str s =>
          have hrows : (processBatch ((name, some (JsonValue.str s)) :: rest)).rows =
              (processBatch rest).rows := by
            simp [processBatch, ht, buildRow]
          have hsd : successDocs ((name, some (JsonValue.str s)) :: rest) =
              successDocs rest := by
            simp [successDocs, List.filter_cons, isSuccess]
          refine ⟨by rw [hrows, hsd]; exact ihl, ?_⟩
          intro i r p hr hp
          rw [hrows] at hr
          rw [hsd] at hp
          exact ihi i r p hr hp
        | bool b =>
          have hrows : (processBatch ((name, some (JsonValue.bool b)) :: rest)).rows =
              (processBatch rest).rows := by
            simp [processBatch, ht, buildRow]
          have hsd : successDocs ((name, some (JsonValue.bool b)) :: rest) =
              successDocs rest := by
            simp [successDocs, List.filter_cons, isSuccess]
          refine ⟨by rw [hrows, hsd]; exact ihl, ?_⟩
          intro i r p hr hp
          rw [hrows] at hr
          rw [hsd] at hp
          exact ihi i r p hr hp
        | null =>
          have hrows : (processBatch ((name, some JsonValue.null) :: rest)).rows =
              (processBatch rest).rows := by
            simp [processBatch, ht, buildRow]
          have hsd : successDocs ((name, some JsonValue.null) :: rest) =
              successDocs rest := by
            simp [successDocs, List.filter_cons, isSuccess]
          refine ⟨by rw [hrows, hsd]; exact ihl, ?_⟩
          intro i r p hr hp
          rw [hrows] at hr
          rw [hsd] at hp
          exact ihi i r p hr hp

/-- A two-document batch whose first extraction already carries a
`Document` key spoofing the *second* document's file name; the loop
overwrites it with the first document's own name. -/
def exBatch10 : List (List Char × Option JsonValue) :=
  [("a.png".toList, some (JsonValue.obj
      [(docKey, JsonValue.str "b.png".toList), ("Revenue".toList, JsonValue.num 1)])),
   ("b.png".toList, some (JsonValue.obj [("Revenue".toList, JsonValue.num 2)]))]

/-- Witness for `rows_document_is_filename`: on `exBatch10` the first
row's `Document` entry is its own file name `a.png`, not the spoofed
`b.png` carried by the engine's extraction. -/
theorem rows_document_witness :
    dictLookup docKey ((processBatch exBatch10).rows.headI) =
      some (JsonValue.str "a.png".toList) :=
  (rows_document_is_filename exBatch10).2 0
    [(docKey, JsonValue.str "a.png".toList), ("Revenue".toList, JsonValue.num 1)]
    ("a.png".toList, some (JsonValue.obj
      [(docKey, JsonValue.str "b.png".toList), ("Revenue".toList, JsonValue.num 1)]))
    rfl rfl

/-! ### Claim C7 — failed documents are excluded and warned once -/

/-- A document whose `run_ocr` result is falsy (`None` or an empty/falsy
extraction): the loop warns and skips it. -/
def failP (p : List Char × Option JsonValue) : Bool :=
  match p.2 with
  | some v => !pyTruthy v
  | none => true

theorem processBatch_counts (batch : List (List Char × Option JsonValue))
    (hobj : ∀ p ∈ batch, ∃ e, p.2 = some (JsonValue.obj e)) :
    (processBatch batch).rows.length + (processBatch batch).warnings.length
      = batch.length ∧
    (processBatch batch).warnings = (batch.filter failP).map Prod.fst := by
  induction batch with
  | nil => exact ⟨rfl, rfl⟩
  | cons p rest ih =>
    obtain ⟨hsum, hw⟩ := ih (fun q hq => hobj q (List.mem_cons_of_mem _ hq))
    obtain ⟨e, he⟩ := hobj p (List.mem_cons_self _ _)
    obtain ⟨name, res⟩ := p
    dsimp only at he
    subst he
    cases ht : pyTruthy (JsonValue.obj e) with
    | false =>
      constructor
      · simp [processBatch, ht]
        omega
      · simp [processBatch, ht, List.filter_cons, failP, hw]
    | true =>
      constructor
      · simp [processBatch, ht, buildRow]
        omega
      · simp [processBatch, ht, buildRow, List.filter_cons, failP, hw]

/-- C7: in a batch of object-valued extraction results, 2 of 5 failing
(falsy/empty mapping) yields a table with exactly 3 rows and exactly 2
warnings — each failed document is excluded from the table and produces
exactly one warning, named after it. -/
theorem batch_three_rows_two_warnings (batch : List (List Char × Option JsonValue))
    (hobj : ∀ p ∈ batch, ∃ e, p.2 = some (JsonValue.obj e))
    (hlen : batch.length = 5)
    (hfail : (batch.filter failP).length = 2) :
    (processBatch batch).rows.length = 3 ∧
    (processBatch batch).warnings.length = 2 ∧
    (processBatch batch).warnings = (batch.filter failP).map Prod.fst := by
  obtain ⟨hsum, hw⟩ := processBatch_counts batch hobj
  have hwl : (processBatch batch).warnings.length = 2 := by
    rw [hw, List.length_map, hfail]
  exact ⟨by omega, hwl, hw⟩

/-- A 5-document batch in which documents 2 and 4 fail extraction. -/
def exBatch7 : List (List Char × Option JsonValue) :=
  [("d1".toList, some (JsonValue.obj [("Revenue".toList, JsonValue.num 1)])),
   ("d2".toList, some (JsonValue.obj [])),
   ("d3".toList, some (JsonValue.obj [("Revenue".toList, JsonValue.num 3)])),
   ("d4".toList, some (JsonValue.obj [])),
   ("d5".toList, some (JsonValue.obj [("Revenue".toList, JsonValue.num 5)]))]

/-- Witness for `batch_three_rows_two_warnings` on `exBatch7`. -/
theorem batch_counts_witness :
    (processBatch exBatch7).rows.length = 3 ∧
    (processBatch exBatch7).warnings.length = 2 ∧
    (processBatch exBatch7).warnings = (exBatch7.filter failP).map Prod.fst :=
  batch_three_rows_two_warnings exBatch7
    (by intro p hp; fin_cases hp <;> exact ⟨_, rfl⟩) rfl rfl

/-! ### Claim C8 — CSV export -/

/-- The concrete claimed table: two documents with a `Revenue` field. -/
def exBatch8 : List (List Char × Option JsonValue) :=
  [("a.png".toList, some (JsonValue.obj [("Revenue".toList, JsonValue.num 100)])),
   ("b.png".toList, some (JsonValue.obj [("Revenue".toList, JsonValue.num 0)]))]

/-- C8 (amended): the CSV export has the `Document` column first and the
field columns in first-appearance order of the extraction results' keys
(which coincides with schema order only when the engine echoes the
prompted order); one data row per document, comma-separated plain
numbers, no index column.  For the claimed concrete table the output is
exactly `Document,Revenue`, `a.png,100`, `b.png,0`, newline-terminated. -/
theorem csv_export_concrete :
    toCsv (processBatch exBatch8).rows =
      "Document,Revenue\na.png,100\nb.png,0\n".toList ∧
    ∀ rows, (dfColumns rows).headI = docKey :=
  ⟨rfl, fun _ => rfl⟩

/-- A Profit-and-Loss extraction whose keys come back in reverse schema
order. -/
def exBatch8rev : List (List Char × Option JsonValue) :=
  [("x.png".toList, some (JsonValue.obj
    [("Operating Profit".toList, JsonValue.num 5),
     ("Gross Profit".toList, JsonValue.num 4),
     ("Net Profit".toList, JsonValue.num 3),
     ("Expenses".toList, JsonValue.num 2),
     ("Revenue".toList, JsonValue.num 1)]))]

/-- C8 counterexample: when the engine returns the Profit-and-Loss keys
in reverse order, the exported columns follow that first-appearance
order, not the schema field order claimed. -/
theorem csv_columns_counterexample :
    dfColumns (processBatch exBatch8rev).rows =
      [docKey, "Operating Profit".toList, "Gross Profit".toList,
       "Net Profit".toList, "Expenses".toList, "Revenue".toList] ∧
    dfColumns (processBatch exBatch8rev).rows ≠ docKey :: profitLossFields :=
  ⟨rfl, by decide⟩

/-! ### Claim C4 — serialization round-trip: decimal digits -/

/-- Reference decimal representation via `Nat.digits`, used only in
proofs. -/
def decRep (n : Nat) : List Char :=
  if n = 0 then ['0'] else (Nat.digits 10 n).reverse.map (fun d => Char.ofNat (48 + d))

theorem dcToNat (d : Nat) (hd : d < 10) : (Char.ofNat (48 + d)).toNat = 48 + d := by
  interval_cases d <;> decide

theorem dc_isDigitC (d : Nat) (hd : d < 10) : isDigitC (Char.ofNat (48 + d)) = true := by
  interval_cases d <;> decide

theorem natToCharsAux_eq (n : Nat) : ∀ f acc, n ≤ f →
    natToCharsAux (f + 1) n acc = decRep n ++ acc := by
  induction n using Nat.strong_induction_on with
  | _ n ih =>
    intro f acc hf
    by_cases h10 : n < 10
    · simp only [natToCharsAux]
      rw [if_pos h10]
      by_cases h0 : n = 0
      · subst h0; simp [decRep]
      · have hd : Nat.digits 10 n = [n] := by
          rw [Nat.digits_def' (by norm_num : 1 < 10) (Nat.pos_of_ne_zero h0)]
          rw [Nat.mod_eq_of_lt h10, Nat.div_eq_of_lt h10]
          simp
        simp [decRep, h0, hd]
    · push_neg at h10
      have hne : n ≠ 0 := by omega
      obtain ⟨f', rfl⟩ : ∃ f', f = f' + 1 := ⟨f - 1, by omega⟩
      rw [natToCharsAux]
      rw [if_neg (by omega)]
      have hdiv : n / 10 < n := Nat.div_lt_self (by omega) (by norm_num)
      have hdivle : n / 10 ≤ f' := by
        have h2 := Nat.div_le_self n 10
        omega
      rw [ih (n / 10) hdiv f' _ hdivle]
      have hne10 : n / 10 ≠ 0 := by
        intro hz
        have := Nat.div_add_mod n 10
        have hlt : n % 10 < 10 := Nat.mod_lt _ (by norm_num)
        omega
      have hsplit : decRep n = decRep (n / 10) ++ [Char.ofNat (48 + n % 10)] := by
        have hdig : Nat.digits 10 n = n % 10 :: Nat.digits 10 (n / 10) :=
          Nat.digits_def' (by norm_num) (Nat.pos_of_ne_zero hne)
        simp [decRep, hne, hne10, hdig, List.reverse_cons]
      rw [hsplit, List.append_assoc]
      rfl

theorem natToChars_eq (n : Nat) : natToChars n = decRep n := by
  have h := natToCharsAux_eq n n [] le_rfl
  simpa [natToChars] using h

theorem natToChars_ne_nil (n : Nat) : natToChars n ≠ [] := by
  rw [natToChars_eq]
  unfold decRep
  by_cases h0 : n = 0
  · simp [h0]
  · simp [h0, Nat.digits_ne_nil_iff_ne_zero.mpr h0]

theorem natToChars_digits (n : Nat) : ∀ c ∈ natToChars n, isDigitC c = true := by
  rw [natToChars_eq]
  by_cases h0 : n = 0
  · subst h0; decide
  · unfold decRep
    rw [if_neg h0]
    intro c hc
    obtain ⟨d, hd, rfl⟩ := List.mem_map.mp hc
    exact dc_isDigitC d (Nat.digits_lt_base (by norm_num) (List.mem_reverse.mp hd))

theorem decRep_head_ne_zero (n : Nat) (hne : n ≠ 0) (c : Char)
    (hc : (decRep n).head? = some c) : c ≠ '0' := by
  unfold decRep at hc
  rw [if_neg hne] at hc
  have hnil : Nat.digits 10 n ≠ [] := Nat.digits_ne_nil_iff_ne_zero.mpr hne
  rw [List.head?_map, List.head?_reverse] at hc
  rw [List.getLast?_eq_getLast _ hnil] at hc
  simp only [Option.map_some'] at hc
  set d := (Nat.digits 10 n).getLast hnil with hdd
  have hd10 : d < 10 := Nat.digits_lt_base (by norm_num) (List.getLast_mem hnil)
  have hdne : d ≠ 0 := Nat.getLast_digit_ne_zero 10 hne
  intro he
  have hch : Char.ofNat (48 + d) = '0' := (Option.some.inj hc).trans he
  have h1 : (Char.ofNat (48 + d)).toNat = 48 := by rw [hch]; rfl
  rw [dcToNat d hd10] at h1
  omega

theorem natToChars_noLeadZero (n : Nat) : noLeadZero (natToChars n) = true := by
  cases hl : natToChars n with
  | nil => exact absurd hl (natToChars_ne_nil n)
  | cons c tail =>
    cases tail with
    | nil => rfl
    | cons d tail2 =>
      have hne : n ≠ 0 := by
        intro h0
        subst h0
        rw [natToChars_eq] at hl
        simp [decRep] at hl
      have hhd : (decRep n).head? = some c := by
        rw [← natToChars_eq, hl]
        rfl
      have := decRep_head_ne_zero n hne c hhd
      simp [noLeadZero, this]

theorem foldl_digits_map (l : List Nat) (hl : ∀ d ∈ l, d < 10) (a : Nat) :
    (l.map (fun d => Char.ofNat (48 + d))).foldl (fun a c => a * 10 + (c.toNat - 48)) a =
      l.foldl (fun a d => a * 10 + d) a := by
  induction l generalizing a with
  | nil => rfl
  | cons d rest ih =>
    simp only [List.map_cons, List.foldl_cons]
    rw [dcToNat d (hl d (List.mem_cons_self _ _))]
    rw [Nat.add_sub_cancel_left]
    exact ih (fun x hx => hl x (List.mem_cons_of_mem _ hx)) _

theorem foldl_reverse_ofDigits (l : List Nat) (a : Nat) :
    (l.reverse).foldl (fun a d => a * 10 + d) a = a * 10 ^ l.length + Nat.ofDigits 10 l := by
  induction l generalizing a with
  | nil => simp
  | cons d rest ih =>
    simp only [List.reverse_cons, List.foldl_append, List.foldl_cons, List.foldl_nil]
    rw [ih]
    simp only [Nat.ofDigits_cons, List.length_cons, pow_succ]
    ring

theorem digitsToNat_natToChars (n : Nat) : digitsToNat (natToChars n) = n := by
  rw [natToChars_eq]
  by_cases h0 : n = 0
  · subst h0; decide
  · unfold decRep
    rw [if_neg h0]
    unfold digitsToNat
    rw [foldl_digits_map _
      (fun d hd => Nat.digits_lt_base (by norm_num) (List.mem_reverse.mp hd)) 0]
    rw [foldl_reverse_ofDigits]
    simp [Nat.ofDigits_digits]

theorem takeDigits_append (ds : List Char) (hd : ∀ c ∈ ds, isDigitC c = true) :
    ∀ rest, (∀ c, rest.head? = some c → isDigitC c = false) →
      takeDigits (ds ++ rest) = (ds, rest) := by
  induction ds with
  | nil =>
    intro rest hrest
    cases rest with
    | nil => rfl
    | cons c r =>
      simp only [List.nil_append, takeDigits]
      rw [hrest c rfl]
      simp
  | cons d ds' ih =>
    intro rest hrest
    simp only [List.cons_append, takeDigits]
    rw [hd d (List.mem_cons_self _ _)]
    simp only [if_true, List.append_eq]
    rw [ih (fun c hc => hd c (List.mem_cons_of_mem _ hc)) rest hrest]

/-- The characters that may legally follow a serialized integer: not a
digit, not a fraction or exponent marker. -/
def numStop (cs : List Char) : Prop :=
  ∀ c, cs.head? = some c → isDigitC c = false ∧ c ≠ '.' ∧ c ≠ 'e' ∧ c ≠ 'E'

theorem numStop_intGuard (rest : List Char) (h : numStop rest) : intGuard rest = true := by
  cases rest with
  | nil => rfl
  | cons c r =>
    obtain ⟨h1, h2, h3, h4⟩ := h c rfl
    simp [intGuard, h2, h3, h4]

theorem isEmpty_false_of_ne_nil (l : List Char) (h : l ≠ []) : l.isEmpty = false := by
  cases l with
  | nil => exact absurd rfl h
  | cons a b => rfl

theorem isDigitC_ne (c : Char) (h : isDigitC c = true) :
    c ≠ '-' ∧ c ≠ '\x7b' ∧ c ≠ '[' ∧ c ≠ '"' := by
  refine ⟨?_, ?_, ?_, ?_⟩ <;> (intro he; subst he; revert h; decide)

theorem parseNumber_intToChars (v : Int) (rest : List Char) (hr : numStop rest) :
    parseNumber (intToChars v ++ rest) = some (JsonValue.num v, rest) := by
  have hstop : ∀ c, rest.head? = some c → isDigitC c = false := fun c hc => (hr c hc).1
  by_cases hv : v < 0
  · have hit : intToChars v = '-' :: natToChars v.natAbs := by
      rw [intToChars, if_pos hv]
    rw [hit, List.cons_append]
    simp only [parseNumber]
    rw [if_pos trivial]
    rw [takeDigits_append _ (natToChars_digits _) rest hstop]
    dsimp only
    rw [isEmpty_false_of_ne_nil _ (natToChars_ne_nil _), natToChars_noLeadZero,
        numStop_intGuard rest hr]
    simp only [Bool.not_false, Bool.and_self, if_true]
    rw [digitsToNat_natToChars]
    have hval : -(Int.ofNat v.natAbs) = v := by
      rw [Int.ofNat_eq_natCast]
      omega
    rw [hval]
  · have hit : intToChars v = natToChars v.toNat := by
      rw [intToChars, if_neg hv]
    cases hnc : natToChars v.toNat with
    | nil => exact absurd hnc (natToChars_ne_nil _)
    | cons c0 tail =>
      have hc0 : isDigitC c0 = true := by
        apply natToChars_digits v.toNat
        rw [hnc]
        exact List.mem_cons_self _ _
      obtain ⟨hne, _, _, _⟩ := isDigitC_ne c0 hc0
      rw [hit, hnc, List.cons_append]
      simp only [parseNumber]
      rw [if_neg hne]
      rw [show c0 :: (tail ++ rest) = natToChars v.toNat ++ rest by rw [hnc]; rfl]
      rw [takeDigits_append _ (natToChars_digits _) rest hstop]
      dsimp only
      rw [isEmpty_false_of_ne_nil _ (natToChars_ne_nil _), natToChars_noLeadZero,
          numStop_intGuard rest hr]
      simp only [Bool.not_false, Bool.and_self, if_true]
      rw [digitsToNat_natToChars]
      have hval : Int.ofNat v.toNat = v := by
        rw [Int.ofNat_eq_natCast]
        exact Int.toNat_of_nonneg (by omega)
      rw [hval]

theorem intToChars_head (v : Int) :
    ∃ c tail, intToChars v = c :: tail ∧ (decide (c = '-') || isDigitC c) = true ∧
      c ≠ '\x7b' ∧ c ≠ '[' ∧ c ≠ '"' := by
  by_cases hv : v < 0
  · exact ⟨'-', natToChars v.natAbs, by rw [intToChars, if_pos hv],
      by decide, by decide, by decide, by decide⟩
  · cases hnc : natToChars v.toNat with
    | nil => exact absurd hnc (natToChars_ne_nil _)
    | cons c0 tail =>
      have hc0 : isDigitC c0 = true := by
        apply natToChars_digits v.toNat
        rw [hnc]
        exact List.mem_cons_self _ _
      obtain ⟨h1, h2, h3, h4⟩ := isDigitC_ne c0 hc0
      exact ⟨c0, tail, by rw [intToChars, if_neg hv, hnc], by simp [hc0], h2, h3, h4⟩

theorem digit_not_ws (c : Char) (h : isDigitC c = true) : isJsonWs c = false := by
  cases hw : isJsonWs c
  · rfl
  · exfalso
    simp only [isJsonWs, Bool.or_eq_true, decide_eq_true_eq] at hw
    rcases hw with ((h1 | h1) | h1) | h1 <;> (subst h1; revert h; decide)

theorem numHead_not_ws (c : Char) (h : (decide (c = '-') || isDigitC c) = true) :
    isJsonWs c = false := by
  simp only [Bool.or_eq_true, decide_eq_true_eq] at h
  rcases h with h | h
  · subst h; decide
  · exact digit_not_ws c h

/-- Parsing a serialized integer in value mode. -/
theorem parseF_value_num (f : Nat) (v : Int) (cs rest : List Char)
    (hskip : skipWs cs = intToChars v ++ rest) (hr : numStop rest) :
    parseF (f + 1) PMode.value cs = some (JsonValue.num v, rest) := by
  obtain ⟨c, tail, hct, hcd, hne1, hne2, hne3⟩ := intToChars_head v
  simp only [parseF]
  rw [hskip, hct, List.cons_append]
  dsimp only
  rw [if_neg hne1, if_neg hne2, if_neg hne3, if_pos hcd]
  rw [show c :: (tail ++ rest) = intToChars v ++ rest by rw [hct]; rfl]
  exact parseNumber_intToChars v rest hr

/-! ### String round-trip through escaping -/

theorem scanStr_quote (acc rest : List Char) :
    scanStr acc ('"' :: rest) = some (acc.reverse, rest) := by
  cases rest with
  | nil => rfl
  | cons e r => rfl

theorem scanStr_raw (c : Char) (hq : c ≠ '"') (hb : c ≠ '\\') (hc : ¬c.toNat < 32)
    (acc cs : List Char) : scanStr acc (c :: cs) = scanStr (c :: acc) cs := by
  cases cs with
  | nil =>
    simp only [scanStr]
    rw [if_neg hq, if_neg hb, if_neg hc]
  | cons e cs2 =>
    simp only [scanStr]
    rw [if_neg hq, if_neg hb, if_neg hc]

theorem scanStr_esc (k : List Char) (hk : ∀ c ∈ k, 32 ≤ c.toNat) :
    ∀ acc rest, scanStr acc (escString k ++ '"' :: rest) = some (acc.reverse ++ k, rest) := by
  induction k with
  | nil =>
    intro acc rest
    rw [show escString [] ++ '"' :: rest = '"' :: rest from rfl, scanStr_quote]
    simp
  | cons c k' ih =>
    intro acc rest
    have hc32 : 32 ≤ c.toNat := hk c (List.mem_cons_self _ _)
    have hk' : ∀ x ∈ k', 32 ≤ x.toNat := fun x hx => hk x (List.mem_cons_of_mem _ hx)
    have hesc : escString (c :: k') = escChar c ++ escString k' := by
      simp [escString]
    by_cases hq : c = '"'
    · subst hq
      rw [hesc, show escChar '"' = ['\\', '"'] from rfl]
      simp only [List.append_assoc, List.cons_append, List.nil_append]
      simp only [scanStr]
      rw [ih hk' ('"' :: acc) rest]
      simp
    · by_cases hb : c = '\\'
      · subst hb
        rw [hesc, show escChar '\\' = ['\\', '\\'] from rfl]
        simp only [List.append_assoc, List.cons_append, List.nil_append]
        simp only [scanStr]
        rw [ih hk' ('\\' :: acc) rest]
        simp
      · rw [hesc, show escChar c = [c] from by simp [escChar, hq, hb]]
        simp only [List.append_assoc, List.cons_append, List.nil_append]
        rw [scanStr_raw c hq hb (by omega)]
        rw [ih hk' (c :: acc) rest]
        simp

/-! ### Object round-trip -/

/-- Folding parsed members into the accumulated Python dict. -/
def foldIns (acc l : List (List Char × JsonValue)) : List (List Char × JsonValue) :=
  l.foldl (fun a kv => dictInsert kv.1 kv.2 a) acc

/-- Keys made only of printable characters (no control characters). -/
def keysOk (M : List (List Char × Int)) : Prop :=
  ∀ p ∈ M, ∀ c ∈ p.1, 32 ≤ c.toNat

theorem skipWs_intToChars (v : Int) (rest : List Char) :
    skipWs (intToChars v ++ rest) = intToChars v ++ rest := by
  obtain ⟨c, tail, hct, hcd, _, _, _⟩ := intToChars_head v
  rw [hct, List.cons_append, skipWs_cons_of_not_ws _ _ (numHead_not_ws c hcd)]

theorem numStop_cons (c0 : Char) (rest : List Char)
    (h : isDigitC c0 = false ∧ c0 ≠ '.' ∧ c0 ≠ 'e' ∧ c0 ≠ 'E') :
    numStop (c0 :: rest) := by
  intro c hc
  simp only [List.head?_cons, Option.some.injEq] at hc
  subst hc
  exact h

theorem serMembers_head_quote (M : List (List Char × Int)) (h : M ≠ []) :
    ∃ t, serMembers M = '"' :: t := by
  cases M with
  | nil => exact absurd rfl h
  | cons p M' =>
    cases M' with
    | nil => exact ⟨_, rfl⟩
    | cons q M'' => exact ⟨_, rfl⟩

theorem skipWs_serMembers (M : List (List Char × Int)) (h : M ≠ []) (rest : List Char) :
    skipWs (serMembers M ++ rest) = serMembers M ++ rest := by
  obtain ⟨t, ht⟩ := serMembers_head_quote M h
  rw [ht, List.cons_append, skipWs_cons_of_not_ws _ _ (by decide)]

theorem parseF_members (M : List (List Char × Int)) : M ≠ [] → keysOk M →
    ∀ g acc cs rest, skipWs cs = serMembers M ++ '\x7d' :: rest →
      parseF (g + M.length + 1) (PMode.members acc) cs =
        some (JsonValue.obj (foldIns acc (jsonOf M)), rest) := by
  induction M with
  | nil => intro h; exact absurd rfl h
  | cons p M' ih =>
    intro _ hk g acc cs rest hcs
    obtain ⟨k, v⟩ := p
    have hkk : ∀ c ∈ k, 32 ≤ c.toNat := fun c hc => hk (k, v) (List.mem_cons_self _ _) c hc
    cases M' with
    | nil =>
      have hexp : serMembers [(k, v)] ++ '\x7d' :: rest =
          '"' :: (escString k ++ '"' :: (':' :: (' ' :: (intToChars v ++ '\x7d' :: rest)))) := by
        simp [serMembers, serPair, List.append_assoc, List.cons_append]
      rw [hexp] at hcs
      have hfuel : g + [(k, v)].length + 1 = (g + 1) + 1 := by simp
      rw [hfuel]
      rw [parseF]
      rw [hcs]
      dsimp only
      rw [if_pos rfl]
      rw [scanStr_esc k hkk [] (':' :: (' ' :: (intToChars v ++ '\x7d' :: rest)))]
      dsimp only
      simp only [List.reverse_nil, List.nil_append]
      rw [skipWs_cons_of_not_ws _ _ (by decide : isJsonWs ':' = false)]
      dsimp only
      rw [if_pos rfl]
      rw [parseF_value_num g v _ ('\x7d' :: rest)
        (by rw [skipWs_cons_of_ws _ _ (by decide), skipWs_intToChars])
        (numStop_cons _ _ (by decide))]
      dsimp only
      rw [skipWs_cons_of_not_ws _ _ (by decide : isJsonWs '\x7d' = false)]
      dsimp only
      rw [if_neg (by decide : ¬('\x7d' = ',')), if_pos rfl]
      rfl
    | cons q M'' =>
      have hexp : serMembers ((k, v) :: q :: M'') ++ '\x7d' :: rest =
          '"' :: (escString k ++ '"' :: (':' :: (' ' :: (intToChars v ++
            ',' :: (' ' :: (serMembers (q :: M'') ++ '\x7d' :: rest)))))) := by
        simp [serMembers, serPair, List.append_assoc, List.cons_append]
      rw [hexp] at hcs
      have hfuel : g + ((k, v) :: q :: M'').length + 1 = (g + (q :: M'').length + 1) + 1 := by
        simp only [List.length_cons]
        omega
      rw [hfuel]
      rw [parseF]
      rw [hcs]
      dsimp only
      rw [if_pos rfl]
      rw [scanStr_esc k hkk [] (':' :: (' ' :: (intToChars v ++
        ',' :: (' ' :: (serMembers (q :: M'') ++ '\x7d' :: rest)))))]
      dsimp only
      simp only [List.reverse_nil, List.nil_append]
      rw [skipWs_cons_of_not_ws _ _ (by decide : isJsonWs ':' = false)]
      dsimp only
      rw [if_pos rfl]
      rw [parseF_value_num (g + (q :: M'').length) v _
        (',' :: (' ' :: (serMembers (q :: M'') ++ '\x7d' :: rest)))
        (by rw [skipWs_cons_of_ws _ _ (by decide), skipWs_intToChars])
        (numStop_cons _ _ (by decide))]
      dsimp only
      rw [skipWs_cons_of_not_ws _ _ (by decide : isJsonWs ',' = false)]
      dsimp only
      rw [if_pos rfl]
      rw [ih (List.cons_ne_nil _ _)
        (fun x hx => hk x (List.mem_cons_of_mem _ hx)) g
        (dictInsert k (JsonValue.num v) acc)
        (' ' :: (serMembers (q :: M'') ++ '\x7d' :: rest)) rest
        (by rw [skipWs_cons_of_ws _ _ (by decide)]
            exact skipWs_serMembers _ (List.cons_ne_nil _ _) _)]
      rfl

theorem serMembers_length (M : List (List Char × Int)) :
    M.length ≤ (serMembers M).length := by
  induction M with
  | nil => simp [serMembers]
  | cons p M' ih =>
    cases M' with
    | nil => simp [serMembers, serPair]
    | cons q M'' =>
      simp only [List.length_cons] at ih ⊢
      simp only [serMembers, serPair, List.length_cons, List.length_append]
      omega

theorem dictInsert_not_mem (k : List Char) (v : JsonValue)
    (l : List (List Char × JsonValue)) (h : k ∉ l.map Prod.fst) :
    dictInsert k v l = l ++ [(k, v)] := by
  induction l with
  | nil => rfl
  | cons kv rest ih =>
    simp only [List.map_cons, List.mem_cons] at h
    push_neg at h
    rw [dictInsert, if_neg (fun he => h.1 he.symm), ih h.2]
    rfl

theorem foldIns_eq (l : List (List Char × JsonValue)) :
    ∀ acc, (l.map Prod.fst).Nodup → (∀ kv ∈ l, kv.1 ∉ acc.map Prod.fst) →
      foldIns acc l = acc ++ l := by
  induction l with
  | nil => intro acc _ _; simp [foldIns]
  | cons kv l' ih =>
    intro acc hnd hdisj
    have hnd2 : (kv.1 :: l'.map Prod.fst).Nodup := by
      simpa only [List.map_cons] using hnd
    have hnc := List.nodup_cons.mp hnd2
    simp only [foldIns, List.foldl_cons]
    rw [dictInsert_not_mem _ _ _ (hdisj kv (List.mem_cons_self _ _))]
    have hdisj' : ∀ x ∈ l', x.1 ∉ (acc ++ [kv]).map Prod.fst := by
      intro x hx
      simp only [List.map_append, List.mem_append]
      rintro (h | h)
      · exact hdisj x (List.mem_cons_of_mem _ hx) h
      · simp only [List.map_cons, List.map_nil, List.mem_singleton] at h
        apply hnc.1
        rw [← h]
        exact List.mem_map_of_mem Prod.fst hx
    have hres := ih (acc ++ [kv]) hnc.2 hdisj'
    rw [show (l'.foldl (fun a kv => dictInsert kv.1 kv.2 a) (acc ++ [kv])) =
      foldIns (acc ++ [kv]) l' from rfl, hres]
    simp

theorem jsonOf_keys (M : List (List Char × Int)) :
    (jsonOf M).map Prod.fst = M.map Prod.fst := by
  simp [jsonOf, List.map_map, Function.comp]

/-- `json.loads` recovers a serialized flat mapping exactly. -/
theorem parseJson_serialize (M : List (List Char × Int)) (hk : keysOk M)
    (hnd : (M.map Prod.fst).Nodup) :
    parseJson (serializeFlat M) = some (JsonValue.obj (jsonOf M)) := by
  cases M with
  | nil => rfl
  | cons p M' =>
    have h2 := serMembers_length (p :: M')
    unfold parseJson
    rw [show serializeFlat (p :: M') =
      '\x7b' :: (serMembers (p :: M') ++ '\x7d' :: []) from rfl]
    rw [show ('\x7b' :: (serMembers (p :: M') ++ '\x7d' :: [])).length + 2 =
      ((('\x7b' :: (serMembers (p :: M') ++ '\x7d' :: [])).length - (p :: M').length)
        + (p :: M').length + 1) + 1 from by
        simp only [List.length_cons] at h2
        simp only [List.length_cons, List.length_append, List.length_nil]
        omega]
    rw [parseF]
    rw [skipWs_cons_of_not_ws _ _ (by decide : isJsonWs '\x7b' = false)]
    dsimp only
    rw [if_pos rfl]
    rw [skipWs_serMembers _ (List.cons_ne_nil _ _)]
    obtain ⟨t, ht⟩ := serMembers_head_quote (p :: M') (List.cons_ne_nil _ _)
    rw [ht, List.cons_append]
    dsimp only
    rw [if_neg (by decide : ¬('"' = '\x7d'))]
    rw [← List.cons_append, ← ht]
    rw [parseF_members (p :: M') (List.cons_ne_nil _ _) hk _ [] _ []
      (skipWs_serMembers _ (List.cons_ne_nil _ _) _)]
    rw [foldIns_eq (jsonOf (p :: M')) [] (by rw [jsonOf_keys]; exact hnd) (by simp)]
    simp [wsOnly]

/-- C4: sanitizing the JSON serialization of a flat string-to-number
mapping returns exactly that mapping, through the direct-parse layer —
`sanitize(json.serialize(M)) == M` (keys restricted to printable
characters; a mapping's keys are distinct). -/
theorem sanitize_serialize_roundtrip (M : List (List Char × Int))
    (hk : keysOk M) (hnd : (M.map Prod.fst).Nodup) :
    sanitizeL (serializeFlat M) = JsonValue.obj (jsonOf M) := by
  unfold sanitizeL
  rw [parseJson_serialize M hk hnd]

/-- Witness for `sanitize_serialize_roundtrip` on a two-field mapping. -/
theorem sanitize_serialize_witness :
    sanitizeL (serializeFlat [("Revenue".toList, 100), ("Tax Amount".toList, -5)]) =
      JsonValue.obj [("Revenue".toList, JsonValue.num 100),
        ("Tax Amount".toList, JsonValue.num (-5))] :=
  sanitize_serialize_roundtrip [("Revenue".toList, 100), ("Tax Amount".toList, -5)]
    (by intro p hp c hc; fin_cases hp <;> revert c hc <;> decide) (by decide)

/-! ### Claim C6 — brace-span recovery with one char of padding -/

/-- The fixed punctuation characters a serialized flat mapping can
contain outside its keys. -/
def strucChars : List Char := ['"', ':', ' ', ',', '-', '\\']

theorem mem_escChar (c x : Char) (h : x ∈ escChar c) : x = '\\' ∨ x = c := by
  unfold escChar at h
  split_ifs at h with h1 h2
  · subst h1; simp at h; tauto
  · subst h2; simp at h; tauto
  · simp at h; tauto

theorem mem_escString (k : List Char) (x : Char) (h : x ∈ escString k) :
    x = '\\' ∨ x ∈ k := by
  unfold escString at h
  obtain ⟨a, ha, hx⟩ := List.mem_flatMap.mp h
  rcases mem_escChar a x hx with h1 | h1
  · exact Or.inl h1
  · exact Or.inr (h1 ▸ ha)

theorem mem_intToChars (v : Int) (x : Char) (h : x ∈ intToChars v) :
    x = '-' ∨ isDigitC x = true := by
  unfold intToChars at h
  split_ifs at h
  · rcases List.mem_cons.mp h with h1 | h1
    · exact Or.inl h1
    · exact Or.inr (natToChars_digits _ x h1)
  · exact Or.inr (natToChars_digits _ x h)

theorem mem_serPair (k : List Char) (v : Int) (x : Char) (h : x ∈ serPair (k, v)) :
    x ∈ strucChars ∨ isDigitC x = true ∨ x ∈ k := by
  simp only [serPair, List.mem_cons, List.mem_append] at h
  rcases h with rfl | h | h
  · left; decide
  · rcases mem_escString k x h with rfl | hk
    · left; decide
    · exact Or.inr (Or.inr hk)
  · rcases h with rfl | rfl | rfl | h
    · left; decide
    · left; decide
    · left; decide
    · rcases mem_intToChars v x h with rfl | hd
      · left; decide
      · exact Or.inr (Or.inl hd)

theorem mem_serMembers (M : List (List Char × Int)) (x : Char) :
    x ∈ serMembers M → x ∈ strucChars ∨ isDigitC x = true ∨ ∃ p ∈ M, x ∈ p.1 := by
  induction M with
  | nil => intro h; simp [serMembers] at h
  | cons p M' ih =>
    obtain ⟨k, v⟩ := p
    cases M' with
    | nil =>
      intro h
      rcases mem_serPair k v x h with h1 | h1 | h1
      · exact Or.inl h1
      · exact Or.inr (Or.inl h1)
      · exact Or.inr (Or.inr ⟨(k, v), List.mem_cons_self _ _, h1⟩)
    | cons q M'' =>
      intro h
      simp only [serMembers, List.mem_append, List.mem_cons] at h
      rcases h with h | h | h | h
      · rcases mem_serPair k v x h with h1 | h1 | h1
        · exact Or.inl h1
        · exact Or.inr (Or.inl h1)
        · exact Or.inr (Or.inr ⟨(k, v), List.mem_cons_self _ _, h1⟩)
      · subst h; left; decide
      · subst h; left; decide
      · rcases ih h with h1 | h1 | ⟨p, hp, h1⟩
        · exact Or.inl h1
        · exact Or.inr (Or.inl h1)
        · exact Or.inr (Or.inr ⟨p, List.mem_cons_of_mem _ hp, h1⟩)

theorem tick_not_in_serializeFlat (M : List (List Char × Int))
    (hk : ∀ p ∈ M, '\x60' ∉ p.1) : '\x60' ∉ serializeFlat M := by
  intro h
  simp only [serializeFlat, List.mem_cons, List.mem_append] at h
  rcases h with h | h | h
  · revert h; decide
  · rcases mem_serMembers M _ h with hs | hd | ⟨p, hp, hc⟩
    · revert hs; decide
    · revert hd; decide
    · exact hk p hp hc
  · revert h; decide

theorem findFenced_none_of_no_fence (cs : List Char)
    (h : ∀ s t, cs ≠ s ++ fenceTag ++ t) : findFenced cs = none := by
  induction cs with
  | nil => rfl
  | cons c rest ih =>
    simp only [findFenced]
    have hp : fenceTag.isPrefixOf (c :: rest) = false := by
      cases hb : fenceTag.isPrefixOf (c :: rest)
      · rfl
      · exfalso
        obtain ⟨t, ht⟩ := List.isPrefixOf_iff_prefix.mp hb
        exact h [] t (by simpa using ht.symm)
    rw [hp]
    rw [if_neg Bool.false_ne_true]
    exact ih (fun s t he => h (c :: s) t (by rw [he]; simp))

theorem no_fence_in_wrapped (c1 c2 : Char) (ser : List Char)
    (hser : '\x60' ∉ ser) : ∀ s t, c1 :: (ser ++ [c2]) ≠ s ++ fenceTag ++ t := by
  intro s t he
  have hcount : List.count '\x60' (c1 :: (ser ++ [c2])) =
      List.count '\x60' (s ++ fenceTag ++ t) := by rw [he]
  rw [List.count_cons, List.count_append] at hcount
  rw [List.count_append, List.count_append] at hcount
  rw [List.count_eq_zero.mpr hser] at hcount
  have hft : List.count '\x60' fenceTag = 3 := by decide
  have hc2 : List.count '\x60' [c2] ≤ 1 :=
    le_trans (List.count_le_length _ _) (by simp)
  rw [hft] at hcount
  split_ifs at hcount <;> omega

theorem lastIdx_ends (A : List Char) (c2 : Char) (h2 : c2 ≠ '\x7d') :
    lastIdx (A ++ '\x7d' :: [c2]) '\x7d' = some A.length := by
  have hrev : (A ++ '\x7d' :: [c2]).reverse = c2 :: '\x7d' :: A.reverse := by simp
  have hfind : findIdxFrom (fun x => decide (x = '\x7d')) (c2 :: '\x7d' :: A.reverse) =
      some 1 := by
    simp [findIdxFrom, h2]
  unfold lastIdx
  rw [hrev, hfind]
  rw [show (A ++ '\x7d' :: [c2]).length = A.length + 2 from by simp]
  rfl

theorem braceSpan_wrapped (c1 c2 : Char) (mid : List Char)
    (h1 : c1 ≠ '\x7b') (h2 : c2 ≠ '\x7d') :
    braceSpan (c1 :: (('\x7b' :: (mid ++ ['\x7d'])) ++ [c2])) =
      some ('\x7b' :: (mid ++ ['\x7d'])) := by
  have hfi : firstIdx (c1 :: (('\x7b' :: (mid ++ ['\x7d'])) ++ [c2])) '\x7b' = some 1 := by
    simp [firstIdx, findIdxFrom, h1, List.cons_append]
  have heq : c1 :: (('\x7b' :: (mid ++ ['\x7d'])) ++ [c2]) =
      (c1 :: '\x7b' :: mid) ++ '\x7d' :: [c2] := by simp
  have hli : lastIdx (c1 :: (('\x7b' :: (mid ++ ['\x7d'])) ++ [c2])) '\x7d' =
      some (mid.length + 2) := by
    rw [heq, lastIdx_ends _ _ h2]
    simp
  unfold braceSpan
  rw [hfi, hli]
  show some (List.take (mid.length + 2 + 1 - 1)
    (List.drop 1 (c1 :: (('\x7b' :: (mid ++ ['\x7d'])) ++ [c2])))) =
      some ('\x7b' :: (mid ++ ['\x7d']))
  rw [show List.drop 1 (c1 :: (('\x7b' :: (mid ++ ['\x7d'])) ++ [c2])) =
    ('\x7b' :: (mid ++ ['\x7d'])) ++ [c2] from rfl]
  rw [show mid.length + 2 + 1 - 1 = mid.length + 2 from by omega]
  congr 1
  exact List.take_left' (by simp)

/-- The flat mapping used in the C6 scenarios. -/
def exM6 : List (List Char × Int) := [("a".toList, 1)]

/-- C6 (amended): for a single leading and trailing non-brace character,
`sanitize` recovers the mapping through the brace-span layer, provided
the padded text does not itself parse directly as JSON (keys printable,
without backquotes; a mapping's keys are distinct).  The original claim
fails when the padding makes the whole text valid JSON, e.g. `[`...`]`. -/
theorem sanitize_brace_span_padding (c1 c2 : Char) (M : List (List Char × Int))
    (h1o : c1 ≠ '\x7b') (_h1c : c1 ≠ '\x7d') (_h2o : c2 ≠ '\x7b') (h2c : c2 ≠ '\x7d')
    (hk : keysOk M) (hnd : (M.map Prod.fst).Nodup)
    (hkt : ∀ p ∈ M, '\x60' ∉ p.1)
    (hdirect : parseJson (c1 :: (serializeFlat M ++ [c2])) = none) :
    sanitizeL (c1 :: (serializeFlat M ++ [c2])) = JsonValue.obj (jsonOf M) := by
  have hff : findFenced (c1 :: (serializeFlat M ++ [c2])) = none :=
    findFenced_none_of_no_fence _
      (no_fence_in_wrapped c1 c2 _ (tick_not_in_serializeFlat M hkt))
  have hbs : braceSpan (c1 :: (serializeFlat M ++ [c2])) = some (serializeFlat M) := by
    rw [show serializeFlat M = '\x7b' :: (serMembers M ++ ['\x7d']) from rfl]
    exact braceSpan_wrapped c1 c2 (serMembers M) h1o h2c
  simp only [sanitizeL, hdirect, hff, hbs, parseJson_serialize M hk hnd]

/-- C6 counterexample: wrapping the serialized mapping in `[` and `]` —
both non-brace characters — makes the whole text valid JSON, so
`sanitize` returns a one-element list, not the mapping. -/
theorem sanitize_bracket_wrap_counterexample :
    sanitizeL ('[' :: (serializeFlat exM6 ++ [']'])) =
      JsonValue.arr [JsonValue.obj (jsonOf exM6)] ∧
    ('[' ≠ '\x7b' ∧ '[' ≠ '\x7d' ∧ ']' ≠ '\x7b' ∧ ']' ≠ '\x7d') ∧
    JsonValue.arr [JsonValue.obj (jsonOf exM6)] ≠ JsonValue.obj (jsonOf exM6) :=
  ⟨rfl, by decide, fun h => JsonValue.noConfusion h⟩

/-- Witness for `sanitize_brace_span_padding` with letter padding. -/
theorem sanitize_brace_span_witness :
    sanitizeL ('x' :: (serializeFlat exM6 ++ ['y'])) = JsonValue.obj (jsonOf exM6) :=
  sanitize_brace_span_padding 'x' 'y' exM6 (by decide) (by decide) (by decide) (by decide)
    (by intro p hp c hc; fin_cases hp; revert c hc; decide) (by decide)
    (by intro p hp; fin_cases hp; decide) rfl

/-! ### Claim C5 — fenced-block recovery from prose-wrapped output -/

/-- A conservative prose alphabet for the amended claim: uppercase
letters, space, and sentence punctuation.  Such prose can never start a
JSON value or a lowercase keyword, and contains no backquote. -/
def safeProseChar (c : Char) : Bool :=
  (65 ≤ c.toNat && c.toNat ≤ 90) || c = ' ' || c = '.' || c = ',' || c = '!' || c = '?'

theorem safeProse_facts (c : Char) (h : safeProseChar c = true) :
    c = ' ' ∨ (isJsonWs c = false ∧ c ≠ '\x7b' ∧ c ≠ '[' ∧ c ≠ '"' ∧
      (decide (c = '-') || isDigitC c) = false ∧ c ≠ 't' ∧ c ≠ 'f' ∧ c ≠ 'n') := by
  simp only [safeProseChar, Bool.or_eq_true, Bool.and_eq_true, decide_eq_true_eq] at h
  rcases h with ((((⟨h1, h2⟩ | hsp) | hdot) | hcom) | hexc) | hq
  · right
    refine ⟨?_, ?_, ?_, ?_, ?_, ?_, ?_, ?_⟩
    · cases hw : isJsonWs c
      · rfl
      · exfalso
        simp only [isJsonWs, Bool.or_eq_true, decide_eq_true_eq] at hw
        rcases hw with ((w | w) | w) | w <;> (subst w; revert h1 h2; decide)
    · intro he; subst he; revert h1 h2; decide
    · intro he; subst he; revert h1 h2; decide
    · intro he; subst he; revert h1 h2; decide
    · cases hd : (decide (c = '-') || isDigitC c)
      · rfl
      · exfalso
        simp only [Bool.or_eq_true, decide_eq_true_eq, isDigitC, Bool.and_eq_true] at hd
        rcases hd with w | ⟨w1, w2⟩
        · subst w; revert h1 h2; decide
        · omega
    · intro he; subst he; revert h1 h2; decide
    · intro he; subst he; revert h1 h2; decide
    · intro he; subst he; revert h1 h2; decide
  · subst hsp; exact Or.inl rfl
  · subst hdot; right; refine ⟨rfl, ?_, ?_, ?_, rfl, ?_, ?_, ?_⟩ <;> decide
  · subst hcom; right; refine ⟨rfl, ?_, ?_, ?_, rfl, ?_, ?_, ?_⟩ <;> decide
  · subst hexc; right; refine ⟨rfl, ?_, ?_, ?_, rfl, ?_, ?_, ?_⟩ <;> decide
  · subst hq; right; refine ⟨rfl, ?_, ?_, ?_, rfl, ?_, ?_, ?_⟩ <;> decide

theorem isPrefixOf_cons_false (a : Char) (as : List Char) (c : Char) (bs : List Char)
    (h : a ≠ c) : (a :: as).isPrefixOf (c :: bs) = false := by
  simp only [List.isPrefixOf]
  rw [beq_eq_false_iff_ne.mpr h]
  rfl

/-- A value-mode parse gets stuck on a head character that starts no
JSON token. -/
theorem parseF_value_stuck (f : Nat) (c : Char) (r cs : List Char)
    (hc1 : c ≠ '\x7b') (hc2 : c ≠ '[') (hc3 : c ≠ '"')
    (hc4 : (decide (c = '-') || isDigitC c) = false)
    (hc5 : litTrue.isPrefixOf (c :: r) = false)
    (hc6 : litFalse.isPrefixOf (c :: r) = false)
    (hc7 : litNull.isPrefixOf (c :: r) = false)
    (hskip : skipWs cs = c :: r) :
    parseF (f + 1) PMode.value cs = none := by
  simp only [parseF]
  rw [hskip]
  dsimp only
  rw [if_neg hc1, if_neg hc2, if_neg hc3, hc4, hc5, hc6, hc7]
  simp

theorem parseF_value_ws_cons (f : Nat) (c : Char) (cs : List Char)
    (h : isJsonWs c = true) :
    parseF (f + 1) PMode.value (c :: cs) = parseF (f + 1) PMode.value cs := by
  simp only [parseF]
  rw [skipWs_cons_of_ws _ _ h]

theorem parseF_prose_none (xs : List Char) (hxs : xs.all safeProseChar = true) :
    ∀ f ys, parseF f PMode.value (xs ++ '\x60' :: ys) = none := by
  induction xs with
  | nil =>
    intro f ys
    cases f with
    | zero => rfl
    | succ f' =>
      refine parseF_value_stuck f' '\x60' ys _ (by decide) (by decide) (by decide)
        (by decide) ?_ ?_ ?_ ?_
      · exact isPrefixOf_cons_false _ _ _ _ (by decide)
      · exact isPrefixOf_cons_false _ _ _ _ (by decide)
      · exact isPrefixOf_cons_false _ _ _ _ (by decide)
      · exact skipWs_cons_of_not_ws _ _ (by decide)
  | cons c xs' ih =>
    intro f ys
    have hc : safeProseChar c = true := by
      simp only [List.all_cons, Bool.and_eq_true] at hxs
      exact hxs.1
    have hxs' : xs'.all safeProseChar = true := by
      simp only [List.all_cons, Bool.and_eq_true] at hxs
      exact hxs.2
    cases f with
    | zero => rfl
    | succ f' =>
      rcases safeProse_facts c hc with hsp | ⟨hw, h1, h2, h3, h4, ht, hf, hn⟩
      · subst hsp
        rw [List.cons_append, parseF_value_ws_cons f' ' ' _ (by decide)]
        exact ih hxs' (f' + 1) ys
      · refine parseF_value_stuck f' c (xs' ++ '\x60' :: ys) _ h1 h2 h3 h4 ?_ ?_ ?_ ?_
        · rw [show litTrue = 't' :: "rue".toList from rfl]
          exact isPrefixOf_cons_false _ _ _ _ (Ne.symm ht)
        · rw [show litFalse = 'f' :: "alse".toList from rfl]
          exact isPrefixOf_cons_false _ _ _ _ (Ne.symm hf)
        · rw [show litNull = 'n' :: "ull".toList from rfl]
          exact isPrefixOf_cons_false _ _ _ _ (Ne.symm hn)
        · rw [List.cons_append]
          exact skipWs_cons_of_not_ws _ _ hw

theorem parseJson_prose_none (xs ys : List Char)
    (hxs : xs.all safeProseChar = true) :
    parseJson (xs ++ '\x60' :: ys) = none := by
  unfold parseJson
  rw [parseF_prose_none xs hxs _ _]

theorem dropReWs_cons_of_ws (c : Char) (cs : List Char) (h : isReWs c = true) :
    dropReWs (c :: cs) = dropReWs cs := by
  simp [dropReWs, List.dropWhile_cons, h]

theorem dropReWs_cons_of_not_ws (c : Char) (cs : List Char) (h : isReWs c = false) :
    dropReWs (c :: cs) = c :: cs := by
  simp [dropReWs, List.dropWhile_cons, h]

theorem lazyCap_skip (xs : List Char) (hxs : '\x7d' ∉ xs) :
    ∀ acc rest, lazyCap acc (xs ++ rest) = lazyCap (xs.reverse ++ acc) rest := by
  induction xs with
  | nil => intro acc rest; simp
  | cons c xs' ih =>
    intro acc rest
    have hc : ¬(c = '\x7d') := fun he => hxs (he ▸ List.mem_cons_self _ _)
    simp only [List.cons_append, lazyCap, List.append_eq]
    rw [if_neg (by simp [hc])]
    rw [ih (fun hm => hxs (List.mem_cons_of_mem _ hm)) (c :: acc) rest]
    simp

theorem close_not_in_serMembers (M : List (List Char × Int))
    (hk7 : ∀ p ∈ M, '\x7d' ∉ p.1) : '\x7d' ∉ serMembers M := by
  intro h
  rcases mem_serMembers M _ h with hs | hd | ⟨p, hp, hc⟩
  · revert hs; decide
  · revert hd; decide
  · exact hk7 p hp hc

theorem fencedHere_genuine (M : List (List Char × Int)) (suf : List Char)
    (hk7 : ∀ p ∈ M, '\x7d' ∉ p.1) :
    fencedHere ('\n' :: (serializeFlat M ++ '\n' :: (ticks ++ suf))) =
      some (serializeFlat M) := by
  unfold fencedHere
  rw [dropReWs_cons_of_ws _ _ (by decide)]
  rw [show serializeFlat M ++ '\n' :: (ticks ++ suf) =
    '\x7b' :: (serMembers M ++ ('\x7d' :: ('\n' :: (ticks ++ suf)))) from by
      simp [serializeFlat]]
  rw [dropReWs_cons_of_not_ws _ _ (by decide)]
  have hcond : ('\x7b' :: (serMembers M ++ '\x7d' :: '\n' :: (ticks ++ suf))).head? =
      some '\x7b' := rfl
  rw [if_pos hcond]
  dsimp only [List.tail_cons]
  rw [lazyCap_skip (serMembers M) (close_not_in_serMembers M hk7) ['\x7b']
    ('\x7d' :: ('\n' :: (ticks ++ suf)))]
  rw [show lazyCap ((serMembers M).reverse ++ ['\x7b'])
      ('\x7d' :: ('\n' :: (ticks ++ suf))) =
    some (('\x7d' :: ((serMembers M).reverse ++ ['\x7b'])).reverse) from by
      simp only [lazyCap]
      rw [if_pos ?_]
      rw [dropReWs_cons_of_ws _ _ (by decide)]
      rw [show dropReWs (ticks ++ suf) = ticks ++ suf from
        dropReWs_cons_of_not_ws _ _ (by decide)]
      rw [show ticks.isPrefixOf (ticks ++ suf) = true from
        List.isPrefixOf_iff_prefix.mpr (List.prefix_append _ _)]
      simp]
  congr 1
  simp [serializeFlat]

theorem findFenced_prefix (pre : List Char) (hpre : '\x60' ∉ pre) :
    ∀ body cap, fencedHere body = some cap →
      findFenced (pre ++ (fenceTag ++ body)) = some cap := by
  induction pre with
  | nil =>
    intro body cap h
    obtain ⟨ft7, hft⟩ : ∃ t, fenceTag = '\x60' :: t := ⟨_, rfl⟩
    rw [List.nil_append, hft, List.cons_append]
    simp only [findFenced]
    rw [← List.cons_append, ← hft]
    rw [show fenceTag.isPrefixOf (fenceTag ++ body) = true from
      List.isPrefixOf_iff_prefix.mpr (List.prefix_append _ _)]
    rw [if_pos rfl]
    rw [show (fenceTag ++ body).drop 7 = body from List.drop_left' (by decide)]
    rw [h]
    rfl
  | cons c pre' ih =>
    intro body cap h
    have hc : ('\x60' : Char) ≠ c := by
      intro he
      exact hpre (by rw [he]; exact List.mem_cons_self _ _)
    obtain ⟨ft7, hft⟩ : ∃ t, fenceTag = '\x60' :: t := ⟨_, rfl⟩
    rw [List.cons_append]
    simp only [findFenced]
    have hpf : fenceTag.isPrefixOf (c :: (pre' ++ (fenceTag ++ body))) = false := by
      rw [hft]
      exact isPrefixOf_cons_false _ _ _ _ hc
    rw [hpf]
    rw [if_neg Bool.false_ne_true]
    exact ih (fun hm => hpre (List.mem_cons_of_mem _ hm)) body cap h

/-- The flat mapping used in the C5 scenarios. -/
def exM5 : List (List Char × Int) := [("Revenue".toList, 7)]

/-- C5 (amended): `sanitize` recovers the mapping from prose, a fenced
```json block holding its serialization, and an arbitrary trailing
suffix — provided the leading prose stays in a safe alphabet (uppercase
words and sentence punctuation, so it contains no backquote and cannot
itself parse as JSON) and the keys contain no `\x7d` or backquote (which
would disturb the lazy regex capture).  The original claim's "arbitrary
prose" is false: a decoy fenced block in the prose breaks recovery. -/
theorem sanitize_fenced_recovery (pre suf : List Char) (M : List (List Char × Int))
    (hpre : pre.all safeProseChar = true)
    (hk : keysOk M) (hnd : (M.map Prod.fst).Nodup)
    (hk7 : ∀ p ∈ M, '\x7d' ∉ p.1) :
    sanitizeL (pre ++ fenceWrap M ++ suf) = JsonValue.obj (jsonOf M) := by
  have hpre6 : '\x60' ∉ pre := by
    intro hm
    have := List.all_eq_true.mp hpre _ hm
    revert this
    decide
  have htext : pre ++ fenceWrap M ++ suf =
      pre ++ (fenceTag ++ ('\n' :: (serializeFlat M ++ '\n' :: (ticks ++ suf)))) := by
    simp [fenceWrap, List.append_assoc]
  rw [htext]
  have hdirect : parseJson (pre ++ (fenceTag ++
      ('\n' :: (serializeFlat M ++ '\n' :: (ticks ++ suf))))) = none := by
    rw [show fenceTag ++ ('\n' :: (serializeFlat M ++ '\n' :: (ticks ++ suf))) =
      '\x60' :: ("``json".toList ++ ('\n' :: (serializeFlat M ++ '\n' :: (ticks ++ suf))))
      from rfl]
    exact parseJson_prose_none pre _ hpre
  have hff : findFenced (pre ++ (fenceTag ++
      ('\n' :: (serializeFlat M ++ '\n' :: (ticks ++ suf))))) = some (serializeFlat M) :=
    findFenced_prefix pre hpre6 _ _ (fencedHere_genuine M suf hk7)
  simp only [sanitizeL, hdirect, hff, parseJson_serialize M hk hnd]

/-- The decoy leading prose of the C5 counterexample: a fenced `json`
block whose body is not valid JSON. -/
def decoyPre : List Char := "```json \x7bx\x7d ``` ".toList

/-- C5 counterexample: with a decoy fenced block in the leading prose,
the regex captures the decoy, its parse fails, and `sanitize` returns
the empty mapping instead of recovering the genuine fenced mapping. -/
theorem sanitize_fenced_counterexample :
    sanitizeL (decoyPre ++ fenceWrap exM5 ++ " END".toList) = JsonValue.obj [] ∧
    JsonValue.obj [] ≠ JsonValue.obj (jsonOf exM5) := by
  refine ⟨rfl, ?_⟩
  intro h
  injection h with h'
  exact List.noConfusion h'

/-- Witness for `sanitize_fenced_recovery` with uppercase prose around
the fenced block. -/
theorem sanitize_fenced_witness :
    sanitizeL ("SURE, HERE IS THE RESULT. ".toList ++ fenceWrap exM5 ++
      " THANKS!".toList) = JsonValue.obj (jsonOf exM5) :=
  sanitize_fenced_recovery "SURE, HERE IS THE RESULT. ".toList " THANKS!".toList exM5
    (by decide)
    (by intro p hp c hc; fin_cases hp; revert c hc; decide)
    (by decide)
    (by intro p hp; fin_cases hp; decide)
